import Mathlib

/-!
Verification of the current-state resolution and aggregation engine of the
process-tracking dashboard (repository `cgof_controle_Processos`).

The definitions below are a shallow embedding of the TypeScript source:

* `uniqueProcesses`    — `src/pages/Dashboard.tsx`, the current-state resolver;
* `classifyDeadline`, `bucketCounts` — the dashboard aggregator (`stats` memo);
* `getDeadlineStatusLabel` — the per-row deadline badge of the process list page;
* `getCurrentParams`   — the query-parameter builder of the process list page;
* `importProcesses`    — `DbService.importProcesses` batching logic;
* `parseExcelDate`, `getVal` — the spreadsheet import parsing of `handleImportExcel`;
* `getProcesses`       — the error path of `DbService.getProcesses`;
* `deleteUser`         — the self-delete guard of `DbService.deleteUser`.

JavaScript `Date` instants are modelled as `Option Int` (`JsNum`), where `none`
stands for `NaN` (an unparseable date): every numeric comparison against `NaN`
is false in JavaScript, which `jgt`/`jeq` reproduce.  Date strings parsed by the
external JS engine are carried alongside their parse result in the record.
-/

namespace Cgof

/-! ### JS string primitives

Modelled over `List Char` with structural recursion (the library's `String`
operations are implemented by well-founded recursion and do not evaluate inside
the kernel). -/

/-- JS `String.prototype.trim`: strip leading and trailing whitespace. -/
def jsTrim (s : String) : String :=
  String.mk (((s.data.dropWhile Char.isWhitespace).reverse.dropWhile Char.isWhitespace).reverse)

/-- JS `String.prototype.toLowerCase` (on the code points this repository
compares). -/
def jsToLower (s : String) : String :=
  String.mk (s.data.map Char.toLower)

/-- Does the character list start with the given pattern? -/
def listStartsWith : List Char → List Char → Bool
  | [], _ => true
  | _ :: _, [] => false
  | p :: ps, c :: cs => p == c && listStartsWith ps cs

/-- Substring search over character lists. -/
def containsSubList (s pat : List Char) : Bool :=
  match s with
  | [] => pat.isEmpty
  | _ :: cs => listStartsWith pat s || containsSubList cs pat

/-- JS `s.includes(pat)`. -/
def containsSub (s pat : String) : Bool :=
  containsSubList s.data pat.data

/-- JS `String.prototype.split` on a single-character separator: the groups
between occurrences of the separator (empty groups included). -/
def splitOnChar (sep : Char) : List Char → List (List Char)
  | [] => [[]]
  | c :: cs =>
    if c == sep then [] :: splitOnChar sep cs
    else
      match splitOnChar sep cs with
      | [] => [[c]]
      | g :: gs => (c :: g) :: gs

/-- JS `s.split(sep)` for a one-character separator, as strings. -/
def jsSplit (s : String) (sep : Char) : List String :=
  (splitOnChar sep s.data).map String.mk

/-- JS `s.slice(0, n)`. -/
def jsSlice (s : String) (n : Nat) : String :=
  String.mk (s.data.take n)

/-- A JavaScript number that is either a real instant (milliseconds since epoch)
or `NaN` (`none`), the result of `new Date(s).getTime()` on an unparseable `s`. -/
abbrev JsNum := Option Int

/-- JavaScript `>` on two `getTime()` results: false whenever either side is `NaN`. -/
def jgt : JsNum → JsNum → Bool
  | some a, some b => b < a
  | _, _ => false

/-- JavaScript `===` on two `getTime()` results: false whenever either side is `NaN`
(`NaN === NaN` is false). -/
def jeq : JsNum → JsNum → Bool
  | some a, some b => a == b
  | _, _ => false

/-- One movement row as consumed by the dashboard (`Process` in `src/types`).
String date fields are carried together with their JS parse result
(`…Ts = new Date(…).getTime()`, `none` = `NaN`); an absent/undefined field is the
empty string, which is falsy in JS.  `deadlineDay` is the calendar day (as a day
number at local midnight) parsed from the `deadline` column, `none` when the
column is null/empty (falsy). -/
structure Process where
  id : String
  number : String
  sector : String
  CGOF : String
  interested : String
  urgent : Bool
  entryDate : String
  entryDateTs : JsNum
  updatedAt : String
  updatedAtTs : JsNum
  createdAt : String
  createdAtTs : JsNum
  deadlineDay : Option Int
  deriving DecidableEq

/-- `new Date(p.updatedAt || p.createdAt || p.entryDate).getTime()` from the
resolver in `Dashboard.tsx`: JS `||` picks the first truthy (non-empty) string,
falling back to `entryDate`, and the chosen string is then parsed. -/
def fallbackTs (p : Process) : JsNum :=
  if p.updatedAt ≠ "" then p.updatedAtTs
  else if p.createdAt ≠ "" then p.createdAtTs
  else p.entryDateTs

/-- The replacement test of the resolver: the candidate `p` replaces the stored
record `ex` iff its `entryDate` instant is strictly later, or the instants are
`===`-equal and the fallback instant is strictly later. -/
def beats (p ex : Process) : Bool :=
  jgt p.entryDateTs ex.entryDateTs ||
    (jeq p.entryDateTs ex.entryDateTs && jgt (fallbackTs p) (fallbackTs ex))

/-- Lookup in the insertion-ordered association list modelling the JS `Map`. -/
def lookupKey (k : String) : List (String × Process) → Option Process
  | [] => none
  | (k', v) :: rest => if k' = k then some v else lookupKey k rest

/-- `map.set(key, v)` on a key already present: replace the value in place,
keeping the insertion position (JS `Map` semantics). -/
def updateAList (k : String) (v : Process) : List (String × Process) → List (String × Process)
  | [] => []
  | (k', v') :: rest => if k' = k then (k', v) :: rest else (k', v') :: updateAList k v rest

/-- One iteration of the `data.forEach` loop of `uniqueProcesses` in
`Dashboard.tsx`: key is the trimmed number; insert when absent, otherwise
replace exactly when the candidate `beats` the stored record. -/
def resolveStep (m : List (String × Process)) (p : Process) : List (String × Process) :=
  let key := jsTrim p.number
  match lookupKey key m with
  | none => m ++ [(key, p)]
  | some existing => if beats p existing then updateAList key p m else m

/-- The current-state resolver `uniqueProcesses` of `Dashboard.tsx`, as the
insertion-ordered mapping from trimmed number to retained record. -/
def uniqueProcesses (data : List Process) : List (String × Process) :=
  data.foldl resolveStep []

/-- The values of the resolved mapping, in insertion order
(`Array.from(map.values())`). -/
def valuesList (m : List (String × Process)) : List Process :=
  m.map (fun kv => kv.2)

/-- The keys of the resolved mapping. -/
def keysOf (m : List (String × Process)) : List String :=
  m.map (fun kv => kv.1)

/-- Whether both instants the resolver compares for `p` are real (non-`NaN`). -/
def totalDatesB (p : Process) : Bool :=
  p.entryDateTs.isSome && (fallbackTs p).isSome

/-- The comparison key of a record with parseable dates: its entry instant paired
with its fallback instant (`NaN` never occurs under `totalDatesB`). -/
def eKey (p : Process) : Int × Int :=
  (p.entryDateTs.getD 0, (fallbackTs p).getD 0)

/-- Strict lexicographic order on (entry instant, fallback instant). -/
def ltPair (a b : Int × Int) : Prop :=
  a.1 < b.1 ∨ (a.1 = b.1 ∧ a.2 < b.2)

/-- Lexicographic order on (entry instant, fallback instant). -/
def lePair (a b : Int × Int) : Prop :=
  a.1 < b.1 ∨ (a.1 = b.1 ∧ a.2 ≤ b.2)

/-- The fold of the per-key subsequence: `none` = key unseen, on first sight the
record is stored, afterwards replaced exactly on `beats`. -/
def step1 : Option Process → Process → Option Process
  | none, p => some p
  | some ex, p => some (if beats p ex then p else ex)

/-- The running winner over a per-key subsequence, starting from the
first-seen record `b`. -/
def wRun (b : Process) : List Process → Process
  | [] => b
  | p :: cs => wRun (if beats p b then p else b) cs

/-! ## Aggregator (`stats` memo of `Dashboard.tsx`) -/

/-- The three deadline buckets of the dashboard (`onTime`/`nearDeadline`/`overdue`
counters). -/
inductive DeadlineStatus where
  | onTime
  | near
  | overdue
  deriving DecidableEq

/-- Deadline classification of one resolved record, with dates at day
granularity (both the deadline and `today` are normalized to local midnight):
no deadline counts as on time; `deadline < today` is overdue;
`deadline <= fiveDaysFromNow` (`today` plus 5 calendar days) is near;
anything else is on time. -/
def classifyDeadline (today : Int) (deadline : Option Int) : DeadlineStatus :=
  match deadline with
  | none => DeadlineStatus.onTime
  | some d =>
    if d < today then DeadlineStatus.overdue
    else if d ≤ today + 5 then DeadlineStatus.near
    else DeadlineStatus.onTime

/-- The per-row deadline badge `getDeadlineStatus` of the process list page:
`diffDays = ceil((deadline - today) / day)` (exact at midnight granularity),
negative is `Vencido`, at most 5 is `Próximo`, else `No Prazo`; a null deadline
shows `-`. -/
def getDeadlineStatusLabel (today : Int) (deadline : Option Int) : String :=
  match deadline with
  | none => "-"
  | some dl =>
    if dl - today < 0 then "Vencido"
    else if dl - today ≤ 5 then "Próximo"
    else "No Prazo"

/-- The label the dashboard buckets correspond to on the list page. -/
def statusLabel : DeadlineStatus → String
  | DeadlineStatus.overdue => "Vencido"
  | DeadlineStatus.near => "Próximo"
  | DeadlineStatus.onTime => "No Prazo"

/-- `sectorCount[sec] = (sectorCount[sec] || 0) + 1` on a `Record<string,number>`,
modelled as an insertion-ordered association list of counters. -/
def bumpKey (k : String) : List (String × Nat) → List (String × Nat)
  | [] => [(k, 1)]
  | (k', n) :: rest => if k' = k then (k', n + 1) :: rest else (k', n) :: bumpKey k rest

/-- Grouped counting of the aggregator: one pass over the resolved records,
incrementing the bucket `key p` when the record yields one. -/
def bucketCounts (key : Process → Option String) (ps : List Process) : List (String × Nat) :=
  ps.foldl (fun acc p =>
    match key p with
    | some k => bumpKey k acc
    | none => acc) []

/-- Sector bucket key: `p.sector?.trim() || 'Não Informado'` — every record is
counted. -/
def sectorKey (p : Process) : Option String :=
  some (if jsTrim p.sector = "" then "Não Informado" else jsTrim p.sector)

/-- Origin bucket key: `p.CGOF || 'Assessoria'` — every record is counted. -/
def originKey (p : Process) : Option String :=
  some (if p.CGOF = "" then "Assessoria" else p.CGOF)

/-- Interested-party bucket key: `p.interested?.trim() || 'Não Informado'` —
every record is counted (display truncation happens after counting). -/
def interestedKey (p : Process) : Option String :=
  some (if jsTrim p.interested = "" then "Não Informado" else jsTrim p.interested)

/-- JS array destructuring `const [y, m] = datePart.split('-')`: a missing
component is `undefined` (which stringifies to `"undefined"` in a template). -/
def jsGet (l : List String) (i : Nat) : String :=
  l.getD i "undefined"

/-- Entry-month bucket key: only records with a truthy `entryDate` whose first
ten characters contain a dash are bucketed, under `` `${y}-${m}` `` built from the
first two dash-separated components. -/
def monthKey (p : Process) : Option String :=
  if p.entryDate = "" then none
  else
    let datePart := jsSlice p.entryDate 10
    if datePart.data.contains '-' then
      let parts := jsSplit datePart '-'
      some (jsGet parts 0 ++ "-" ++ jsGet parts 1)
    else none

/-- Total of a counter table. -/
def sumCounts (l : List (String × Nat)) : Nat :=
  l.foldl (fun acc kv => acc + kv.2) 0

/-! ## Query-parameter builder (`getCurrentParams` of the process list page) -/

/-- The four sortable columns of the list page. -/
inductive SortField where
  | deadline
  | updatedAt
  | number
  | entryDate
  deriving DecidableEq

/-- Sort direction. -/
inductive SortOrder where
  | asc
  | desc
  deriving DecidableEq

/-- The `filters` object of `ProcessQueryParams`; a `none` field is `undefined`,
i.e. absent from the descriptor. -/
structure Filters where
  CGOF : Option String
  sector : Option String
  entryDateStart : Option String
  entryDateEnd : Option String
  urgent : Option Bool
  overdue : Option Bool
  emptySector : Option Bool
  emptyExitDate : Option Bool
  deriving DecidableEq

/-- The canonical query descriptor `ProcessQueryParams` sent to
`DbService.getProcesses`. -/
structure ProcessQueryParams where
  page : Nat
  itemsPerPage : Nat
  searchTerm : String
  filters : Filters
  sortBy : Option (SortField × SortOrder)
  deriving DecidableEq

/-- The UI filter/sort/pagination state of the process list page. -/
structure UiState where
  searchTerm : String
  filterCgof : String
  filterSector : String
  filterEntryDateStart : String
  filterEntryDateEnd : String
  filterUrgent : Bool
  filterOverdue : Bool
  filterEmptySector : Bool
  filterEmptyExitDate : Bool
  sortBy : SortField
  currentPage : Nat
  itemsPerPage : Nat
  deriving DecidableEq

/-- The defaults every filter field resets to (`getInitialState` fallbacks and
the "Limpar" action). -/
def initialUiState : UiState where
  searchTerm := ""
  filterCgof := ""
  filterSector := ""
  filterEntryDateStart := ""
  filterEntryDateEnd := ""
  filterUrgent := false
  filterOverdue := false
  filterEmptySector := false
  filterEmptyExitDate := false
  sortBy := SortField.entryDate
  currentPage := 1
  itemsPerPage := 20

/-- `getCurrentParams` of the process list page: text filters are sent as
`value || undefined`, boolean toggles as `flag ? true : undefined`, the sort
order is descending exactly for the deadline and entry-date columns, and page
plus page size are always present. -/
def getCurrentParams (st : UiState) : ProcessQueryParams where
  page := st.currentPage
  itemsPerPage := st.itemsPerPage
  searchTerm := st.searchTerm
  filters :=
    { CGOF := if st.filterCgof = "" then none else some st.filterCgof
      sector := if st.filterSector = "" then none else some st.filterSector
      entryDateStart := if st.filterEntryDateStart = "" then none else some st.filterEntryDateStart
      entryDateEnd := if st.filterEntryDateEnd = "" then none else some st.filterEntryDateEnd
      urgent := if st.filterUrgent then some true else none
      overdue := if st.filterOverdue then some true else none
      emptySector := if st.filterEmptySector then some true else none
      emptyExitDate := if st.filterEmptyExitDate then some true else none }
  sortBy :=
    some (st.sortBy,
      if st.sortBy = SortField.deadline ∨ st.sortBy = SortField.entryDate then SortOrder.desc
      else SortOrder.asc)

/-- The offset `DbService.getProcesses` derives from the page:
`from = (page - 1) * itemsPerPage`, so page numbers are 1-indexed. -/
def rangeFrom (params : ProcessQueryParams) : Nat :=
  (params.page - 1) * params.itemsPerPage

/-! ## Bulk import batching (`DbService.importProcesses`) -/

/-- `normalizeCGOF` of `dbService`: lower-cased, trimmed; substring matches on
"recebimento" and "gabinete" pick the canonical enum values, everything else
becomes "Assessoria". -/
def normalizeCGOF (value : String) : String :=
  let lower := jsTrim (jsToLower value)
  if containsSub lower "recebimento" then "Recebimento"
  else if containsSub lower "gabinete" then "Gabinete do Coordenador"
  else "Assessoria"

/-- The `for (let i = 0; i < length; i += BATCH_SIZE)` slicing: the loop runs
`ceil(length / n)` times and its `i`-th iteration takes `slice(i*n, i*n + n)`.
(`n = 0` never occurs; the batch size is 100.) -/
def chunksOf {α : Type} (n : Nat) (l : List α) : List (List α) :=
  (List.range ((l.length + n - 1) / n)).map (fun i => (l.drop (i * n)).take n)

/-- Outcome of a bulk import run: the chunks for which an insert was issued, in
order, and the error propagated to the caller (if any). -/
structure ImportRun where
  attempted : List (List Process)
  result : Option String
  deriving DecidableEq

/-- The batch loop: insert each chunk in order; the first store error stops the
loop and is thrown to the caller (later chunks are never attempted).  `ins` is
the external store's response to inserting a chunk. -/
def runBatches (ins : List Process → Option String) : List (List Process) → ImportRun
  | [] => { attempted := [], result := none }
  | c :: cs =>
    match ins c with
    | some e => { attempted := [c], result := some e }
    | none =>
      let r := runBatches ins cs
      { attempted := c :: r.attempted, result := r.result }

/-- The CGOF normalization pass applied to every record before batching. -/
def cleanImport (ps : List Process) : List Process :=
  ps.map (fun p => { p with CGOF := normalizeCGOF p.CGOF })

/-- The chunks `importProcesses` slices the cleaned records into
(`BATCH_SIZE = 100`). -/
def importBatches (ps : List Process) : List (List Process) :=
  chunksOf 100 (cleanImport ps)

/-- `DbService.importProcesses`: normalize all CGOFs, then insert the records in
batches of 100, aborting at (and propagating) the first failing insert. -/
def importProcesses (ins : List Process → Option String) (ps : List Process) : ImportRun :=
  runBatches ins (importBatches ps)

/-! ## Spreadsheet import parsing (`handleImportExcel`) -/

/-- A spreadsheet cell as handed over by the XLSX reader: a string or a numeric
serial date. -/
inductive CellVal where
  | str (s : String)
  | num (n : Int)
  deriving DecidableEq

/-- Case-insensitive header matching of `getVal`:
`k.toLowerCase().trim() === name.toLowerCase().trim()` for some synonym. -/
def headerKeyMatches (k : String) (names : List String) : Bool :=
  names.any (fun n => jsTrim (jsToLower k) == jsTrim (jsToLower n))

/-- The accepted header synonyms for the entry-date column. -/
def entryHeaderSynonyms : List String :=
  ["Entrada", "Data Entrada", "Data da Entrada", "Data de Entrada"]

/-- `getVal` of `handleImportExcel`: the value under the first row key matching
one of the accepted header synonyms, case-insensitively. -/
def getVal (row : List (String × CellVal)) (possibleNames : List String) : Option CellVal :=
  (row.find? (fun kv => headerKeyMatches kv.1 possibleNames)).map (fun kv => kv.2)

/-- Two-digit field of the `fr-CA` (`YYYY-MM-DD`) date format. -/
def pad2 (n : Int) : String :=
  if n < 10 then "0" ++ toString n else toString n

/-- Proleptic-Gregorian date of a day count since 1970-01-01
(the civil-from-days algorithm, with floor division). -/
def civilFromDays (z0 : Int) : Int × Int × Int :=
  let z := z0 + 719468
  let era := Int.fdiv z 146097
  let doe := z - era * 146097
  let yoe := Int.fdiv (doe - Int.fdiv doe 1460 + Int.fdiv doe 36524 - Int.fdiv doe 146096) 365
  let y := yoe + era * 400
  let doy := doe - (365 * yoe + Int.fdiv yoe 4 - Int.fdiv yoe 100)
  let mp := Int.fdiv (5 * doy + 2) 153
  let d := doy - Int.fdiv (153 * mp + 2) 5 + 1
  let m := if mp < 10 then mp + 3 else mp - 9
  (if m ≤ 2 then y + 1 else y, m, d)

/-- Day count since 1970-01-01 of a proleptic-Gregorian date
(the days-from-civil algorithm). -/
def daysFromCivil (y0 m d : Int) : Int :=
  let y := if m ≤ 2 then y0 - 1 else y0
  let era := Int.fdiv y 400
  let yoe := y - era * 400
  let doy := Int.fdiv (153 * (if m > 2 then m - 3 else m + 9) + 2) 5 + d - 1
  let doe := yoe * 365 + Int.fdiv yoe 4 - Int.fdiv yoe 100 + doy
  era * 146097 + doe - 719468

/-- `toServerTimestampNoonLocal` on a string input: keep the first ten
characters, require a full `YYYY-MM-DD`, and pin the time to local noon in the
fixed `-03:00` offset. -/
def toServerTimestampNoonLocalStr (dateInput : String) : Option String :=
  let dateStr := jsSlice dateInput 10
  if dateStr = "" ∨ dateStr.length ≠ 10 then none
  else some (dateStr ++ "T12:00:00-03:00")

/-- `toServerTimestampNoonLocal` on a `Date` input (epoch milliseconds):
`toLocaleDateString('fr-CA', America/Sao_Paulo)` renders the calendar day at
UTC-3 (no DST since 2019) as `YYYY-MM-DD`, then the time is pinned to local
noon. -/
def toServerTimestampNoonLocalDate (msEpoch : Int) : Option String :=
  let localDay := Int.fdiv (msEpoch - 10800000) 86400000
  let ymd := civilFromDays localDay
  let dateStr := toString ymd.1 ++ "-" ++ pad2 ymd.2.1 ++ "-" ++ pad2 ymd.2.2
  if dateStr = "" ∨ dateStr.length ≠ 10 then none
  else some (dateStr ++ "T12:00:00-03:00")

/-- The numeric branch of `parseExcelDate`: a spreadsheet serial date `val` is
turned into `new Date((val - (25567 + 1)) * 86400 * 1000)` and normalized. -/
def parseExcelDateNum (val : Int) : Option String :=
  toServerTimestampNoonLocalDate ((val - 25568) * 86400000)

/-- The `DD/MM/YYYY` branch of `parseExcelDate`: split on `/`, rebuild
`` `${y}-${m}-${d}` `` and normalize. -/
def parseExcelDateSlash (val : String) : Option String :=
  let parts := jsSplit val '/' 
  toServerTimestampNoonLocalStr (jsGet parts 2 ++ "-" ++ jsGet parts 1 ++ "-" ++ jsGet parts 0)

/-- `parseExcelDate` of `handleImportExcel`.  A falsy cell (absent, empty
string, serial 0) is null; a numeric cell goes through the serial-date branch; a
string containing `/` through the `DD/MM/YYYY` branch; any other string is
parsed by the external JS `Date` parser, supplied here as the oracle
`jsDateMs` (`none` = invalid date, which normalizes to null). -/
def parseExcelDate (jsDateMs : String → Option Int) (v : Option CellVal) : Option String :=
  match v with
  | none => none
  | some (CellVal.num n) => if n = 0 then none else parseExcelDateNum n
  | some (CellVal.str s) =>
    if s = "" then none
    else if containsSub s "/" then parseExcelDateSlash s
    else
      match jsDateMs s with
      | none => none
      | some ms => toServerTimestampNoonLocalDate ms

/-! ## `DbService.getProcesses` error path -/

/-- One raw row as returned by the store, before the normalization map
(`p.field || default`); absent columns are `none`. -/
structure RawRow where
  category : Option String
  CGOF : Option String
  number : Option String
  interested : Option String
  subject : Option String
  sector : Option String
  observations : Option String
  createdBy : Option String
  updatedBy : Option String
  entryDate : Option String
  processDate : Option String
  deadline : Option String
  deriving DecidableEq

/-- A normalized process row: every optional text column defaulted to the empty
string, date columns `processDate`/`deadline` defaulted to null. -/
structure ProcessRow where
  category : String
  CGOF : String
  number : String
  interested : String
  subject : String
  sector : String
  observations : String
  createdBy : String
  updatedBy : String
  entryDate : String
  processDate : Option String
  deadline : Option String
  deriving DecidableEq

/-- JS `x || ''` on an optional string column. -/
def orEmpty (o : Option String) : String :=
  o.getD ""

/-- JS `x || null` on an optional string column: the empty string is falsy and
also becomes null. -/
def orNull (o : Option String) : Option String :=
  match o with
  | none => none
  | some s => if s = "" then none else some s

/-- The normalization map of `getProcesses` applied to each raw row. -/
def normalizeRow (r : RawRow) : ProcessRow where
  category := orEmpty r.category
  CGOF := orEmpty r.CGOF
  number := orEmpty r.number
  interested := orEmpty r.interested
  subject := orEmpty r.subject
  sector := orEmpty r.sector
  observations := orEmpty r.observations
  createdBy := orEmpty r.createdBy
  updatedBy := orEmpty r.updatedBy
  entryDate := orEmpty r.entryDate
  processDate := orNull r.processDate
  deadline := orNull r.deadline

/-- What the store hands back for a query: rows, error, and total count (each
possibly absent). -/
structure StoreResponse where
  data : Option (List RawRow)
  error : Option String
  count : Option Nat
  deriving DecidableEq

/-- The result-assembly tail of `DbService.getProcesses`: on a store error the
failure is logged and `{ data: [], count: 0 }` is returned; otherwise the rows
are normalized and the count defaulted to 0.  The function never throws. -/
def getProcesses (resp : StoreResponse) : List ProcessRow × Nat :=
  match resp.error with
  | some _ => ([], 0)
  | none => ((resp.data.getD []).map normalizeRow, resp.count.getD 0)

/-! ## `DbService.deleteUser` self-delete guard -/

/-- A user row (only the fields `deleteUser` touches). -/
structure User where
  id : String
  name : String
  deriving DecidableEq

/-- One audit-log entry as appended by `logAction`. -/
structure LogEntry where
  action : String
  description : String
  userId : String
  targetId : Option String
  deriving DecidableEq

/-- Observable outcome of `deleteUser`: ids for which a delete was sent to the
store, audit entries appended, and the error thrown (if any). -/
structure DeleteOutcome where
  deletes : List String
  logs : List LogEntry
  err : Option String
  deriving DecidableEq

/-- `DbService.deleteUser`: deleting one's own account throws before any store
call; otherwise the delete is issued, a store error is rethrown (skipping the
audit log), and on success one audit entry is appended. -/
def deleteUser (userId : String) (performedBy : User) (storeErr : Option String) :
    DeleteOutcome :=
  if userId = performedBy.id then
    { deletes := [], logs := [], err := some "Você não pode excluir seu próprio usuário." }
  else
    match storeErr with
    | some e => { deletes := [userId], logs := [], err := some e }
    | none =>
      { deletes := [userId]
        logs := [{ action := "USER_MGMT"
                   description := "Usuário excluído (ID: " ++ userId ++ ")"
                   userId := performedBy.id
                   targetId := some userId }]
        err := none }

/-! ## Concrete records used in examples and counterexamples -/

/-- A movement record with only the resolver-relevant fields populated. -/
def mkMovement (num entry : String) (ets : JsNum) (upd : String) (uts : JsNum)
    (sec : String) : Process where
  id := "r-" ++ num ++ "-" ++ sec
  number := num
  sector := sec
  CGOF := ""
  interested := ""
  urgent := false
  entryDate := entry
  entryDateTs := ets
  updatedAt := upd
  updatedAtTs := uts
  createdAt := ""
  createdAtTs := none
  deadlineDay := none

/-- `{number:"A", entryDate:"2024-01-01", updatedAt:"2024-01-02"}`;
the instants are the JS parses of those strings (UTC midnights). -/
def exRecA1 : Process :=
  mkMovement "A" "2024-01-01" (some 1704067200000) "2024-01-02" (some 1704153600000) "first"

/-- `{number:"A", entryDate:"2024-01-01", updatedAt:"2024-01-03"}`. -/
def exRecA2 : Process :=
  mkMovement "A" "2024-01-01" (some 1704067200000) "2024-01-03" (some 1704240000000) "second"

/-- A record whose `entryDate` does not parse (`new Date("not a date")` is
`NaN`). -/
def nanRec : Process :=
  mkMovement "A" "not a date" none "" none "nan-sector"

/-- A record with the same number and a parseable `entryDate`. -/
def realRec : Process :=
  mkMovement "A" "2024-01-01" (some 1704067200000) "" none "real-sector"

/-- Two fully tying movements of the same process that differ in their payload
(sector): same entry instant, same fallback instant. -/
def tieRec1 : Process :=
  mkMovement "A" "2024-01-01" (some 1704067200000) "2024-01-02" (some 1704153600000) "sector-one"

/-- The other fully tying movement. -/
def tieRec2 : Process :=
  mkMovement "A" "2024-01-01" (some 1704067200000) "2024-01-02" (some 1704153600000) "sector-two"

/-- A resolved record whose `entryDate` is empty (falsy), as C4's edge case
admits into the resolved collection. -/
def noEntryRec : Process :=
  mkMovement "B" "" none "" none "somewhere"

end Cgof

/-! # Theorems -/

namespace Cgof

/-! ## Association-list (JS `Map`) lemmas -/

theorem lookup_append (n : String) (m m' : List (String × Process)) :
    lookupKey n (m ++ m') =
      match lookupKey n m with
      | some v => some v
      | none => lookupKey n m' := by
  induction m with
  | nil => rfl
  | cons kv m ih =>
    obtain ⟨k, v⟩ := kv
    by_cases h : k = n <;> simp [lookupKey, h, ih]

theorem lookup_update_self {m : List (String × Process)} {k : String} {ex : Process}
    (v : Process) (h : lookupKey k m = some ex) :
    lookupKey k (updateAList k v m) = some v := by
  induction m with
  | nil => simp [lookupKey] at h
  | cons kv m ih =>
    obtain ⟨k', v'⟩ := kv
    by_cases hk : k' = k
    · simp [lookupKey, updateAList, hk]
    · simp [lookupKey, updateAList, hk] at h ⊢
      exact ih h

theorem lookup_update_other {n k : String} (hnk : k ≠ n) (v : Process)
    (m : List (String × Process)) :
    lookupKey n (updateAList k v m) = lookupKey n m := by
  induction m with
  | nil => rfl
  | cons kv m ih =>
    obtain ⟨k', v'⟩ := kv
    by_cases hk : k' = k
    · subst hk
      simp [lookupKey, updateAList, hnk]
    · by_cases hn : k' = n <;> simp [lookupKey, updateAList, hk, hn, ih, Ne.symm hnk]

theorem lookup_isSome_iff_mem_keys (n : String) (m : List (String × Process)) :
    (lookupKey n m).isSome = true ↔ n ∈ keysOf m := by
  induction m with
  | nil => simp [lookupKey, keysOf]
  | cons kv m ih =>
    obtain ⟨k, v⟩ := kv
    by_cases h : k = n <;> simp [lookupKey, keysOf, h, ih] <;> tauto

theorem keys_update (k : String) (v : Process) (m : List (String × Process)) :
    keysOf (updateAList k v m) = keysOf m := by
  induction m with
  | nil => rfl
  | cons kv m ih =>
    obtain ⟨k', v'⟩ := kv
    by_cases h : k' = k <;> simp [updateAList, keysOf, h] <;> simpa [keysOf] using ih

theorem resolveStep_eq (m : List (String × Process)) (p : Process) :
    resolveStep m p =
      match lookupKey (jsTrim p.number) m with
      | none => m ++ [(jsTrim p.number, p)]
      | some existing => if beats p existing then updateAList (jsTrim p.number) p m else m := rfl

theorem keys_resolveStep (m : List (String × Process)) (p : Process) :
    keysOf (resolveStep m p) =
      if (lookupKey (jsTrim p.number) m).isSome then keysOf m
      else keysOf m ++ [jsTrim p.number] := by
  rw [resolveStep_eq]
  cases hm : lookupKey (jsTrim p.number) m with
  | none => simp [keysOf]
  | some ex =>
    by_cases hb : beats p ex <;> simp [hb, keys_update]

/-! ## Per-key characterization of the resolver -/

theorem lookup_resolveStep (m : List (String × Process)) (p : Process) (n : String) :
    lookupKey n (resolveStep m p) =
      if jsTrim p.number = n then step1 (lookupKey n m) p else lookupKey n m := by
  rw [resolveStep_eq]
  cases hm : lookupKey (jsTrim p.number) m with
  | none =>
    rw [lookup_append]
    by_cases hkn : jsTrim p.number = n
    · subst hkn
      rw [hm]
      simp [lookupKey, step1]
    · simp only [if_neg hkn]
      cases hl : lookupKey n m with
      | some v => rfl
      | none => simp [lookupKey, hkn]
  | some ex =>
    dsimp only
    by_cases hb : beats p ex
    · rw [if_pos hb]
      by_cases hkn : jsTrim p.number = n
      · subst hkn
        rw [lookup_update_self p hm, hm]
        simp [step1, hb]
      · rw [lookup_update_other hkn p m, if_neg hkn]
    · rw [if_neg hb]
      by_cases hkn : jsTrim p.number = n
      · subst hkn
        rw [hm]
        simp [step1, hb]
      · rw [if_neg hkn]

theorem lookup_foldl (data : List Process) (m : List (String × Process)) (n : String) :
    lookupKey n (data.foldl resolveStep m) =
      (data.filter (fun p => jsTrim p.number == n)).foldl step1 (lookupKey n m) := by
  induction data generalizing m with
  | nil => rfl
  | cons p data ih =>
    rw [List.foldl_cons, ih, List.filter_cons]
    by_cases h : jsTrim p.number = n
    · simp [h, lookup_resolveStep]
    · simp [h, lookup_resolveStep]

theorem foldl_step1_some (b : Process) (cs : List Process) :
    List.foldl step1 (some b) cs = some (wRun b cs) := by
  induction cs generalizing b with
  | nil => rfl
  | cons p cs ih =>
    rw [List.foldl_cons]
    show List.foldl step1 (some (if beats p b then p else b)) cs = _
    rw [ih, wRun]

/-! ## The comparison as a lexicographic order (for parseable dates) -/

theorem beats_iff {p q : Process} (hp : totalDatesB p = true) (hq : totalDatesB q = true) :
    beats p q = true ↔ ltPair (eKey q) (eKey p) := by
  unfold totalDatesB at hp hq
  simp only [Bool.and_eq_true, Option.isSome_iff_exists] at hp hq
  obtain ⟨⟨a, ha⟩, b, hb⟩ := hp
  obtain ⟨⟨c, hc⟩, d, hd⟩ := hq
  simp only [beats, jgt, jeq, eKey, ltPair, ha, hb, hc, hd, Option.getD_some,
    Bool.or_eq_true, Bool.and_eq_true, decide_eq_true_eq, beq_iff_eq]
  omega

theorem lePair_refl (a : Int × Int) : lePair a a := by
  unfold lePair
  omega

theorem lePair_trans {a b c : Int × Int} (h1 : lePair a b) (h2 : lePair b c) : lePair a c := by
  unfold lePair at *
  omega

theorem ltPair_le_trans {a b c : Int × Int} (h1 : ltPair a b) (h2 : lePair b c) : ltPair a c := by
  unfold ltPair lePair at *
  omega

theorem lePair_lt_trans {a b c : Int × Int} (h1 : lePair a b) (h2 : ltPair b c) : ltPair a c := by
  unfold ltPair lePair at *
  omega

theorem lePair_of_not_lt {a b : Int × Int} (h : ¬ ltPair a b) : lePair b a := by
  unfold ltPair lePair at *
  omega

theorem lePair_antisymm {a b : Int × Int} (h1 : lePair a b) (h2 : lePair b a) : a = b := by
  have : a.1 = b.1 ∧ a.2 = b.2 := by
    unfold lePair at *
    omega
  exact Prod.ext this.1 this.2

/-! ## Behavior of the running winner -/

theorem wRun_cons (b p : Process) (cs : List Process) :
    wRun b (p :: cs) = wRun (if beats p b then p else b) cs := rfl

theorem wRun_mem (b : Process) (cs : List Process) : wRun b cs = b ∨ wRun b cs ∈ cs := by
  induction cs generalizing b with
  | nil => left; rfl
  | cons p cs ih =>
    rw [wRun_cons]
    by_cases hb : beats p b
    · rw [if_pos hb]
      rcases ih p with h | h
      · right
        rw [h]
        exact List.mem_cons_self _ _
      · right
        exact List.mem_cons_of_mem _ h
    · rw [if_neg hb]
      rcases ih b with h | h
      · left; exact h
      · right; exact List.mem_cons_of_mem _ h

theorem wRun_le {cs : List Process} {b : Process}
    (htot : ∀ q, (q = b ∨ q ∈ cs) → totalDatesB q = true) :
    ∀ q, (q = b ∨ q ∈ cs) → lePair (eKey q) (eKey (wRun b cs)) := by
  induction cs generalizing b with
  | nil =>
    intro q hq
    rcases hq with rfl | h
    · exact lePair_refl _
    · simp at h
  | cons p cs ih =>
    have htot' : ∀ q, (q = (if beats p b then p else b) ∨ q ∈ cs) → totalDatesB q = true := by
      intro q hq
      rcases hq with rfl | h
      · by_cases hb : beats p b
        · simpa [hb] using htot p (Or.inr (List.mem_cons_self _ _))
        · simpa [hb] using htot b (Or.inl rfl)
      · exact htot q (Or.inr (List.mem_cons_of_mem _ h))
    have hrec := ih htot'
    have hb_le : lePair (eKey b) (eKey (wRun b (p :: cs))) := by
      rw [wRun_cons]
      by_cases hb : beats p b
      · have h1 : ltPair (eKey b) (eKey p) :=
          (beats_iff (htot p (Or.inr (List.mem_cons_self _ _))) (htot b (Or.inl rfl))).1 hb
        have h2 : lePair (eKey p) (eKey (wRun (if beats p b then p else b) cs)) := by
          apply hrec
          left
          rw [if_pos hb]
        refine lePair_trans ?_ h2
        unfold lePair
        unfold ltPair at h1
        omega
      · apply hrec
        left
        rw [if_neg hb]
    have hp_le : lePair (eKey p) (eKey (wRun b (p :: cs))) := by
      rw [wRun_cons]
      by_cases hb : beats p b
      · apply hrec
        left
        rw [if_pos hb]
      · have h1 : ¬ ltPair (eKey b) (eKey p) := fun hlt =>
          hb ((beats_iff (htot p (Or.inr (List.mem_cons_self _ _))) (htot b (Or.inl rfl))).2 hlt)
        have h2 : lePair (eKey b) (eKey (wRun (if beats p b then p else b) cs)) := by
          apply hrec
          left
          rw [if_neg hb]
        exact lePair_trans (lePair_of_not_lt h1) h2
    intro q hq
    rcases hq with rfl | hq
    · exact hb_le
    rcases List.mem_cons.1 hq with rfl | hq
    · exact hp_le
    · rw [wRun_cons]
      exact hrec q (Or.inr hq)

theorem wRun_first {cs : List Process} {b : Process}
    (htot : ∀ q, (q = b ∨ q ∈ cs) → totalDatesB q = true) :
    ∃ pre post, b :: cs = pre ++ wRun b cs :: post ∧
      ∀ q ∈ pre, ltPair (eKey q) (eKey (wRun b cs)) := by
  induction cs generalizing b with
  | nil => exact ⟨[], [], rfl, by simp⟩
  | cons p cs ih =>
    rw [wRun_cons]
    have htotp : totalDatesB p = true := htot p (Or.inr (List.mem_cons_self _ _))
    have htotb : totalDatesB b = true := htot b (Or.inl rfl)
    by_cases hb : beats p b
    · rw [if_pos hb]
      have htot' : ∀ q, (q = p ∨ q ∈ cs) → totalDatesB q = true := by
        intro q hq
        rcases hq with rfl | h
        · exact htotp
        · exact htot q (Or.inr (List.mem_cons_of_mem _ h))
      obtain ⟨pre', post', hdec, hlt⟩ := ih htot'
      refine ⟨b :: pre', post', ?_, ?_⟩
      · rw [List.cons_append, ← hdec]
      · intro q hq
        rcases List.mem_cons.1 hq with rfl | hq
        · have h1 : ltPair (eKey q) (eKey p) := (beats_iff htotp htotb).1 hb
          have h2 : lePair (eKey p) (eKey (wRun p cs)) := wRun_le htot' p (Or.inl rfl)
          exact ltPair_le_trans h1 h2
        · exact hlt q hq
    · rw [if_neg hb]
      have htot' : ∀ q, (q = b ∨ q ∈ cs) → totalDatesB q = true := by
        intro q hq
        rcases hq with rfl | h
        · exact htotb
        · exact htot q (Or.inr (List.mem_cons_of_mem _ h))
      obtain ⟨pre', post', hdec, hlt⟩ := ih htot'
      cases pre' with
      | nil =>
        simp only [List.nil_append] at hdec
        have hwb : wRun b cs = b := by
          injection hdec with h1 _
          exact h1.symm
        exact ⟨[], p :: cs, by rw [hwb]; rfl, by simp⟩
      | cons x pre'' =>
        have hx : x = b ∧ cs = pre'' ++ wRun b cs :: post' := by
          rw [List.cons_append] at hdec
          injection hdec with h1 h2
          exact ⟨h1.symm, h2⟩
        refine ⟨b :: p :: pre'', post', ?_, ?_⟩
        · rw [List.cons_append, List.cons_append, ← hx.2]
        · have hbw : ltPair (eKey b) (eKey (wRun b cs)) := by
            apply hlt
            rw [hx.1]
            exact List.mem_cons_self _ _
          intro q hq
          rcases List.mem_cons.1 hq with rfl | hq
          · exact hbw
          rcases List.mem_cons.1 hq with rfl | hq
          · have h1 : ¬ ltPair (eKey b) (eKey q) := fun hlt' =>
              hb ((beats_iff htotp htotb).2 hlt')
            exact lePair_lt_trans (lePair_of_not_lt h1) hbw
          · apply hlt
            rw [hx.1]
            exact List.mem_cons_of_mem _ hq

theorem lookup_uniqueProcesses (data : List Process) (n : String) :
    lookupKey n (uniqueProcesses data) =
      match data.filter (fun p => jsTrim p.number == n) with
      | [] => none
      | c :: cs => some (wRun c cs) := by
  have h := lookup_foldl data [] n
  simp only [uniqueProcesses]
  rw [h]
  cases data.filter (fun p => jsTrim p.number == n) with
  | nil => rfl
  | cons c cs =>
    show List.foldl step1 (step1 none c) cs = _
    simp only [step1]
    exact foldl_step1_some c cs

/-! ## Key-set invariants of the resolver -/

theorem keys_foldl (data : List Process) (m : List (String × Process))
    (hnd : (keysOf m).Nodup) :
    (keysOf (data.foldl resolveStep m)).Nodup ∧
      (∀ n, n ∈ keysOf (data.foldl resolveStep m) ↔
        n ∈ keysOf m ∨ n ∈ data.map (fun p => jsTrim p.number)) := by
  induction data generalizing m with
  | nil => simpa using hnd
  | cons p data ih =>
    rw [List.foldl_cons]
    have hstep := keys_resolveStep m p
    by_cases h : (lookupKey (jsTrim p.number) m).isSome = true
    · rw [if_pos h] at hstep
      obtain ⟨h1, h2⟩ := ih (resolveStep m p) (hstep ▸ hnd)
      have hkm : jsTrim p.number ∈ keysOf m := (lookup_isSome_iff_mem_keys _ _).1 h
      refine ⟨h1, fun n => ?_⟩
      rw [h2 n, hstep, List.map_cons, List.mem_cons]
      constructor
      · tauto
      · rintro (hn | rfl | hn)
        · tauto
        · tauto
        · tauto
    · rw [if_neg h] at hstep
      have hkm : jsTrim p.number ∉ keysOf m := fun hc =>
        h ((lookup_isSome_iff_mem_keys _ _).2 hc)
      have hnd' : (keysOf (resolveStep m p)).Nodup := by
        rw [hstep]
        refine List.Nodup.append hnd (List.nodup_singleton _) ?_
        intro a ha hb
        rw [List.mem_singleton] at hb
        exact hkm (hb ▸ ha)
      obtain ⟨h1, h2⟩ := ih (resolveStep m p) hnd'
      refine ⟨h1, fun n => ?_⟩
      rw [h2 n, hstep, List.map_cons, List.mem_cons, List.mem_append, List.mem_singleton]
      tauto

theorem keys_uniqueProcesses_nodup (data : List Process) :
    (keysOf (uniqueProcesses data)).Nodup :=
  (keys_foldl data [] (by simp [keysOf])).1

theorem mem_keys_uniqueProcesses (data : List Process) (n : String) :
    n ∈ keysOf (uniqueProcesses data) ↔ n ∈ data.map (fun p => jsTrim p.number) := by
  have h := (keys_foldl data [] (by simp [keysOf])).2 n
  simpa [keysOf] using h

/-! ## Filtered-sublist decomposition -/

theorem filter_decomp {α : Type} (f : α → Bool) :
    ∀ (l pre post : List α) (w : α), l.filter f = pre ++ w :: post →
      ∃ pre0 post0, l = pre0 ++ w :: post0 ∧ pre0.filter f = pre := by
  intro l
  induction l with
  | nil =>
    intro pre post w h
    simp only [List.filter_nil] at h
    exact absurd h.symm (List.append_ne_nil_of_right_ne_nil _ (by simp))
  | cons x l ih =>
    intro pre post w h
    rw [List.filter_cons] at h
    by_cases hf : f x = true
    · rw [if_pos hf] at h
      cases pre with
      | nil =>
        simp only [List.nil_append] at h
        injection h with h1 h2
        exact ⟨[], l, by rw [h1]; rfl, rfl⟩
      | cons y pre' =>
        rw [List.cons_append] at h
        injection h with h1 h2
        obtain ⟨pre0, post0, hdec, hfil⟩ := ih pre' post w h2
        refine ⟨x :: pre0, post0, by rw [List.cons_append, ← hdec], ?_⟩
        rw [List.filter_cons, if_pos hf, hfil, h1]
    · rw [if_neg hf] at h
      obtain ⟨pre0, post0, hdec, hfil⟩ := ih pre post w h
      refine ⟨x :: pre0, post0, by rw [List.cons_append, ← hdec], ?_⟩
      rw [List.filter_cons, if_neg hf, hfil]

/-! ## Counting lemmas for the aggregator -/

theorem foldl_add_init (l : List (String × Nat)) (a : Nat) :
    l.foldl (fun acc kv => acc + kv.2) a = a + l.foldl (fun acc kv => acc + kv.2) 0 := by
  induction l generalizing a with
  | nil => simp
  | cons kv l ih =>
    rw [List.foldl_cons, List.foldl_cons, ih (a + kv.2), ih (0 + kv.2)]
    omega

theorem sumCounts_cons (kv : String × Nat) (l : List (String × Nat)) :
    sumCounts (kv :: l) = kv.2 + sumCounts l := by
  show List.foldl (fun acc kv => acc + kv.2) (0 + kv.2) l = _
  rw [foldl_add_init]
  show 0 + kv.2 + sumCounts l = _
  omega

theorem sumCounts_bumpKey (k : String) (acc : List (String × Nat)) :
    sumCounts (bumpKey k acc) = sumCounts acc + 1 := by
  induction acc with
  | nil => rfl
  | cons kv acc ih =>
    obtain ⟨k', n⟩ := kv
    by_cases h : k' = k
    · rw [bumpKey, if_pos h, sumCounts_cons, sumCounts_cons]
      omega
    · rw [bumpKey, if_neg h, sumCounts_cons, sumCounts_cons, ih]
      omega

theorem sum_bucketCounts_aux (key : Process → Option String) (ps : List Process)
    (acc : List (String × Nat)) :
    sumCounts (ps.foldl (fun acc p =>
        match key p with
        | some k => bumpKey k acc
        | none => acc) acc) =
      sumCounts acc + (ps.filter (fun p => (key p).isSome)).length := by
  induction ps generalizing acc with
  | nil => simp
  | cons p ps ih =>
    rw [List.foldl_cons, List.filter_cons]
    cases hk : key p with
    | some k =>
      rw [ih]
      simp [hk, sumCounts_bumpKey]
      omega
    | none =>
      rw [ih]
      simp [hk]

theorem sum_bucketCounts (key : Process → Option String) (ps : List Process) :
    sumCounts (bucketCounts key ps) = (ps.filter (fun p => (key p).isSome)).length := by
  have h := sum_bucketCounts_aux key ps []
  have h0 : sumCounts [] = 0 := rfl
  rw [h0, Nat.zero_add] at h
  exact h

/-! ## Claim theorems -/

/-- C1: For every list of movement records, the current-state resolver returns a
mapping with exactly one record per distinct trimmed process number present in
the input (the key set is duplicate-free and is exactly the set of trimmed
numbers); the retained record for a number is the one with the strictly latest
`entryDate` instant, equal `entryDate` instants being decided by the strictly
latest fallback instant (`updatedAt` if present, else `createdAt`, else
`entryDate`), and full ties retaining the first-seen record (the retained
record occurs in the input, every same-number record compares
lexicographically at most equal to it, and every same-number record at an
earlier position compares strictly below it); empty input yields an empty
mapping.  In particular, given the two records of the example, the resolver
returns the second. -/
theorem c1_resolver_latest_per_number (data : List Process)
    (htot : ∀ p ∈ data, totalDatesB p = true) :
    uniqueProcesses [] = []
    ∧ (keysOf (uniqueProcesses data)).Nodup
    ∧ (∀ n, (lookupKey n (uniqueProcesses data)).isSome = true ↔
        n ∈ data.map (fun p => jsTrim p.number))
    ∧ (∀ n w, lookupKey n (uniqueProcesses data) = some w →
        w ∈ data ∧ jsTrim w.number = n
        ∧ (∀ q ∈ data, jsTrim q.number = n → lePair (eKey q) (eKey w))
        ∧ ∃ pre post, data = pre ++ w :: post ∧
            ∀ q ∈ pre, jsTrim q.number = n → ltPair (eKey q) (eKey w))
    ∧ lookupKey "A" (uniqueProcesses [exRecA1, exRecA2]) = some exRecA2 := by
  refine ⟨rfl, keys_uniqueProcesses_nodup data, ?_, ?_, by decide⟩
  · intro n
    exact (lookup_isSome_iff_mem_keys n _).trans (mem_keys_uniqueProcesses data n)
  · intro n w hw
    rw [lookup_uniqueProcesses] at hw
    cases hfil : data.filter (fun p => jsTrim p.number == n) with
    | nil => rw [hfil] at hw; exact absurd hw (by simp)
    | cons c cs =>
      rw [hfil] at hw
      have hw' : w = wRun c cs := by
        injection hw with h
        exact h.symm
      subst hw'
      have hsub : ∀ q, (q = c ∨ q ∈ cs) → q ∈ data := by
        intro q hq
        have : q ∈ c :: cs := by
          rcases hq with rfl | hq
          · exact List.mem_cons_self _ _
          · exact List.mem_cons_of_mem _ hq
        rw [← hfil] at this
        exact List.mem_of_mem_filter this
    -- x
      have htot' : ∀ q, (q = c ∨ q ∈ cs) → totalDatesB q = true := fun q hq =>
        htot q (hsub q hq)
      have hkeyw : jsTrim (wRun c cs).number = n := by
        have hmem : wRun c cs ∈ c :: cs := by
          rcases wRun_mem c cs with h | h
          · rw [h]; exact List.mem_cons_self _ _
          · exact List.mem_cons_of_mem _ h
        rw [← hfil] at hmem
        have := List.of_mem_filter hmem
        simpa using this
      refine ⟨hsub _ (wRun_mem c cs), hkeyw, ?_, ?_⟩
      · intro q hq hkey
        have hqf : q ∈ c :: cs := by
          rw [← hfil]
          exact List.mem_filter.2 ⟨hq, by simp [hkey]⟩
        rcases List.mem_cons.1 hqf with rfl | hqf
        · exact wRun_le htot' q (Or.inl rfl)
        · exact wRun_le htot' q (Or.inr hqf)
      · obtain ⟨pre', post', hdec, hlt⟩ := wRun_first htot'
        rw [hdec] at hfil
        obtain ⟨pre0, post0, hdata, hfil0⟩ := filter_decomp _ data pre' post' _ hfil
        refine ⟨pre0, post0, hdata, ?_⟩
        intro q hq hkey
        apply hlt
        rw [← hfil0]
        exact List.mem_filter.2 ⟨hq, by simp [hkey]⟩

theorem c1_resolver_latest_per_number_witness :
    lookupKey "A" (uniqueProcesses [exRecA1, exRecA2]) = some exRecA2 :=
  (c1_resolver_latest_per_number [exRecA1, exRecA2]
    (by intro p hp; fin_cases hp <;> decide)).2.2.2.2

/-- C2: For every resolved record and reference day `today`, the aggregator's
deadline classification is: null deadline gives OnTime; deadline (normalized to
local midnight) strictly before the start of today gives Overdue;
`today ≤ deadline ≤ today + 5` calendar days, both boundaries inclusive, gives
Near; otherwise OnTime.  The list page's badge labels agree with the buckets
for present deadlines.  In particular, with today = 2024-06-10: deadline
2024-06-09 classifies as Overdue, 2024-06-14 as Near, 2024-06-16 as OnTime, and
null as OnTime. -/
theorem c2_deadline_classification :
    (∀ today : Int, classifyDeadline today none = DeadlineStatus.onTime)
    ∧ (∀ today d : Int, d < today → classifyDeadline today (some d) = DeadlineStatus.overdue)
    ∧ (∀ today d : Int, today ≤ d → d ≤ today + 5 →
        classifyDeadline today (some d) = DeadlineStatus.near)
    ∧ (∀ today d : Int, today + 5 < d → classifyDeadline today (some d) = DeadlineStatus.onTime)
    ∧ (∀ today d : Int,
        getDeadlineStatusLabel today (some d) = statusLabel (classifyDeadline today (some d)))
    ∧ classifyDeadline (daysFromCivil 2024 6 10) (some (daysFromCivil 2024 6 9)) =
        DeadlineStatus.overdue
    ∧ classifyDeadline (daysFromCivil 2024 6 10) (some (daysFromCivil 2024 6 14)) =
        DeadlineStatus.near
    ∧ classifyDeadline (daysFromCivil 2024 6 10) (some (daysFromCivil 2024 6 16)) =
        DeadlineStatus.onTime
    ∧ classifyDeadline (daysFromCivil 2024 6 10) none = DeadlineStatus.onTime := by
  refine ⟨fun _ => rfl, ?_, ?_, ?_, ?_, by decide, by decide, by decide, rfl⟩
  · intro today d h
    simp [classifyDeadline, h]
  · intro today d h1 h2
    simp only [classifyDeadline]
    rw [if_neg (by omega), if_pos h2]
  · intro today d h
    simp only [classifyDeadline]
    rw [if_neg (by omega), if_neg (by omega)]
  · intro today d
    simp only [classifyDeadline, getDeadlineStatusLabel]
    by_cases h1 : d < today
    · rw [if_pos h1, if_pos (by omega)]
      rfl
    · rw [if_neg h1, if_neg (by omega)]
      by_cases h2 : d ≤ today + 5
      · rw [if_pos h2, if_pos (by omega)]
        rfl
      · rw [if_neg h2, if_neg (by omega)]
        rfl

theorem c2_deadline_classification_witness :
    classifyDeadline 10 (some 9) = DeadlineStatus.overdue
    ∧ classifyDeadline 10 (some 15) = DeadlineStatus.near
    ∧ classifyDeadline 10 (some 16) = DeadlineStatus.onTime :=
  ⟨c2_deadline_classification.2.1 10 9 (by decide),
   c2_deadline_classification.2.2.1 10 15 (by decide) (by decide),
   c2_deadline_classification.2.2.2.1 10 16 (by decide)⟩

/-- C3 counterexample: the resolver is not order-independent.  Two fully tying
movements of process "A" (equal entry instant and equal fallback instant, but
different sectors) are kept first-seen-wins, so swapping them — a permutation —
changes the record the mapping assigns to "A". -/
theorem c3_counterexample :
    ([tieRec1, tieRec2]).Perm ([tieRec2, tieRec1])
    ∧ lookupKey "A" (uniqueProcesses [tieRec1, tieRec2]) ≠
        lookupKey "A" (uniqueProcesses [tieRec2, tieRec1]) :=
  ⟨List.Perm.swap tieRec2 tieRec1 [], by decide⟩

/-- C3 (amended): provided every record's entry and fallback instants are
parseable and no two records with the same trimmed number fully tie (equal
entry and fallback instants) unless they are the same record, the resolver
produces the same number-to-record mapping for every permutation of the input
list. -/
theorem c3_resolver_order_independent (data data2 : List Process)
    (htot : ∀ p ∈ data, totalDatesB p = true)
    (hnotie : ∀ p ∈ data, ∀ q ∈ data,
      jsTrim p.number = jsTrim q.number → eKey p = eKey q → p = q)
    (hperm : data.Perm data2) :
    ∀ n, lookupKey n (uniqueProcesses data) = lookupKey n (uniqueProcesses data2) := by
  intro n
  rw [lookup_uniqueProcesses, lookup_uniqueProcesses]
  have hpermf : (data.filter (fun p => jsTrim p.number == n)).Perm
      (data2.filter (fun p => jsTrim p.number == n)) := hperm.filter _
  cases hfil : data.filter (fun p => jsTrim p.number == n) with
  | nil =>
    rw [hfil] at hpermf
    have h2 : data2.filter (fun p => jsTrim p.number == n) = [] :=
      (List.Perm.nil_eq hpermf).symm
    rw [h2]
  | cons c cs =>
    rw [hfil] at hpermf
    cases hfil2 : data2.filter (fun p => jsTrim p.number == n) with
    | nil =>
      rw [hfil2] at hpermf
      exact absurd (List.Perm.eq_nil hpermf) (by simp)
    | cons d ds =>
      rw [hfil2] at hpermf
      have hmemdata : ∀ q, (q = c ∨ q ∈ cs) → q ∈ data := by
        intro q hq
        have : q ∈ c :: cs := by
          rcases hq with rfl | hq
          · exact List.mem_cons_self _ _
          · exact List.mem_cons_of_mem _ hq
        rw [← hfil] at this
        exact List.mem_of_mem_filter this
      have hmemdata2 : ∀ q, (q = d ∨ q ∈ ds) → q ∈ data := by
        intro q hq
        have h1 : q ∈ d :: ds := by
          rcases hq with rfl | hq
          · exact List.mem_cons_self _ _
          · exact List.mem_cons_of_mem _ hq
        have h2 : q ∈ c :: cs := hpermf.mem_iff.2 h1
        rw [← hfil] at h2
        exact List.mem_of_mem_filter h2
      have htot1 : ∀ q, (q = c ∨ q ∈ cs) → totalDatesB q = true := fun q hq =>
        htot q (hmemdata q hq)
      have htot2 : ∀ q, (q = d ∨ q ∈ ds) → totalDatesB q = true := fun q hq =>
        htot q (hmemdata2 q hq)
      have hw1mem : wRun c cs ∈ c :: cs := by
        rcases wRun_mem c cs with h | h
        · rw [h]; exact List.mem_cons_self _ _
        · exact List.mem_cons_of_mem _ h
      have hw2mem : wRun d ds ∈ d :: ds := by
        rcases wRun_mem d ds with h | h
        · rw [h]; exact List.mem_cons_self _ _
        · exact List.mem_cons_of_mem _ h
      have hle1 : lePair (eKey (wRun d ds)) (eKey (wRun c cs)) := by
        have : wRun d ds ∈ c :: cs := hpermf.mem_iff.2 hw2mem
        rcases List.mem_cons.1 this with h | h
        · exact wRun_le htot1 _ (Or.inl h)
        · exact wRun_le htot1 _ (Or.inr h)
      have hle2 : lePair (eKey (wRun c cs)) (eKey (wRun d ds)) := by
        have : wRun c cs ∈ d :: ds := hpermf.mem_iff.1 hw1mem
        rcases List.mem_cons.1 this with h | h
        · exact wRun_le htot2 _ (Or.inl h)
        · exact wRun_le htot2 _ (Or.inr h)
      have hkey1 : jsTrim (wRun c cs).number = n := by
        have := List.of_mem_filter (hfil ▸ hw1mem)
        simpa using this
      have hkey2 : jsTrim (wRun d ds).number = n := by
        have h2 : wRun d ds ∈ c :: cs := hpermf.mem_iff.2 hw2mem
        have := List.of_mem_filter (hfil ▸ h2)
        simpa using this
      have heq : wRun c cs = wRun d ds := by
        apply hnotie _ (hmemdata _ (List.mem_cons.1 hw1mem))
          _ (hmemdata2 _ (List.mem_cons.1 hw2mem))
        · rw [hkey1, hkey2]
        · exact lePair_antisymm hle2 hle1
      show some (wRun c cs) = some (wRun d ds)
      rw [heq]

theorem c3_resolver_order_independent_witness :
    lookupKey "A" (uniqueProcesses [exRecA1, exRecA2]) =
      lookupKey "A" (uniqueProcesses [exRecA2, exRecA1]) :=
  c3_resolver_order_independent [exRecA1, exRecA2] [exRecA2, exRecA1]
    (by intro p hp; fin_cases hp <;> decide)
    (by intro p hp q hq; fin_cases hp <;> fin_cases hq <;> decide)
    (List.Perm.swap exRecA2 exRecA1 []) "A"

/-- C4 counterexample: a record whose `entryDate` does not parse is NOT treated
as the smallest possible instant.  When the unparseable record is seen first,
every comparison against its `NaN` instant is false, so the parseable-dated
record never replaces it: the resolver keeps the unparseable record. -/
theorem c4_counterexample :
    nanRec.entryDateTs = none
    ∧ realRec.entryDateTs.isSome = true
    ∧ jsTrim nanRec.number = jsTrim realRec.number
    ∧ lookupKey "A" (uniqueProcesses [nanRec, realRec]) = some nanRec
    ∧ nanRec ≠ realRec := by
  refine ⟨rfl, rfl, rfl, by decide, by decide⟩

/-- C4 (amended): a record with a missing or unparseable `entryDate` does not
make the resolver crash (the model is a total function), but it is not treated
as the smallest instant: every comparison involving a `NaN` instant is false,
so a stored record is never replaced when either its own or the candidate's
`entryDate` is unparseable — the first-seen record of the pair is retained, and
a parseable-dated record beats the unparseable one only when it is encountered
first. -/
theorem c4_unparseable_entry_first_seen_wins (m : List (String × Process)) (p ex : Process)
    (hlk : lookupKey (jsTrim p.number) m = some ex)
    (hnan : ex.entryDateTs = none ∨ p.entryDateTs = none) :
    resolveStep m p = m := by
  rw [resolveStep_eq, hlk]
  dsimp only
  have hbeats : beats p ex = false := by
    rcases hnan with h | h <;>
      simp [beats, jgt, jeq, h]
  rw [hbeats]
  simp

theorem c4_unparseable_entry_first_seen_wins_witness :
    resolveStep [("A", nanRec)] realRec = [("A", nanRec)] :=
  c4_unparseable_entry_first_seen_wins [("A", nanRec)] realRec nanRec
    (by decide) (Or.inl rfl)

/-- C5 counterexample: the entry-month dimension can drop records.  A resolved
collection holding one current record whose `entryDate` is empty (falsy in JS)
produces month buckets summing to 0, not to the resolved current-process
count 1. -/
theorem c5_counterexample :
    sumCounts (bucketCounts monthKey (valuesList (uniqueProcesses [noEntryRec]))) ≠
      (valuesList (uniqueProcesses [noEntryRec])).length := by
  decide

/-- C5 (amended): for every resolved collection, the sector, origin and
interested-party bucket counts (before top-N truncation) each sum exactly to
the number of resolved current processes; the entry-month buckets sum to the
number of records whose `entryDate` is non-empty and dash-formatted in its
first ten characters (records without such an `entryDate` are dropped from that
dimension only). -/
theorem c5_grouped_counts_sum (ps : List Process) :
    sumCounts (bucketCounts sectorKey ps) = ps.length
    ∧ sumCounts (bucketCounts originKey ps) = ps.length
    ∧ sumCounts (bucketCounts interestedKey ps) = ps.length
    ∧ sumCounts (bucketCounts monthKey ps) =
        (ps.filter (fun p => (monthKey p).isSome)).length := by
  refine ⟨?_, ?_, ?_, sum_bucketCounts monthKey ps⟩
  · rw [sum_bucketCounts]
    congr 1
    exact List.filter_eq_self.2 (fun p _ => by simp [sectorKey])
  · rw [sum_bucketCounts]
    congr 1
    exact List.filter_eq_self.2 (fun p _ => by simp [originKey])
  · rw [sum_bucketCounts]
    congr 1
    exact List.filter_eq_self.2 (fun p _ => by simp [interestedKey])

/-- C6: For every UI filter/sort/pagination state, the query descriptor built by
`getCurrentParams` omits any text filter field whose UI value is empty (never
an empty-string constraint), includes each boolean toggle filter (urgent,
overdue, empty-sector, empty-exit-date) exactly when that toggle is true, sorts
by entry-date descending when no explicit sort field is chosen (the default
state), and always includes the 1-indexed page (`from = (page-1) * itemsPerPage`
in the store call) and the page size.  In particular, with
`{urgent: false, sector: ""}` the descriptor contains neither an urgent nor a
sector filter key. -/
theorem c6_query_builder :
    (∀ st : UiState,
        ((getCurrentParams st).filters.CGOF = none ↔ st.filterCgof = "")
        ∧ ((getCurrentParams st).filters.sector = none ↔ st.filterSector = "")
        ∧ ((getCurrentParams st).filters.entryDateStart = none ↔ st.filterEntryDateStart = "")
        ∧ ((getCurrentParams st).filters.entryDateEnd = none ↔ st.filterEntryDateEnd = "")
        ∧ ((getCurrentParams st).filters.urgent = some true ↔ st.filterUrgent = true)
        ∧ ((getCurrentParams st).filters.urgent = none ↔ st.filterUrgent = false)
        ∧ ((getCurrentParams st).filters.overdue = some true ↔ st.filterOverdue = true)
        ∧ ((getCurrentParams st).filters.overdue = none ↔ st.filterOverdue = false)
        ∧ ((getCurrentParams st).filters.emptySector = some true ↔ st.filterEmptySector = true)
        ∧ ((getCurrentParams st).filters.emptySector = none ↔ st.filterEmptySector = false)
        ∧ ((getCurrentParams st).filters.emptyExitDate = some true ↔
            st.filterEmptyExitDate = true)
        ∧ ((getCurrentParams st).filters.emptyExitDate = none ↔
            st.filterEmptyExitDate = false)
        ∧ (getCurrentParams st).page = st.currentPage
        ∧ (getCurrentParams st).itemsPerPage = st.itemsPerPage
        ∧ (st.sortBy = SortField.entryDate →
            (getCurrentParams st).sortBy = some (SortField.entryDate, SortOrder.desc)))
    ∧ (getCurrentParams initialUiState).sortBy = some (SortField.entryDate, SortOrder.desc)
    ∧ (∀ st : UiState, st.currentPage = 1 → rangeFrom (getCurrentParams st) = 0)
    ∧ (getCurrentParams
        { initialUiState with filterUrgent := false, filterSector := "" }).filters.urgent = none
    ∧ (getCurrentParams
        { initialUiState with filterUrgent := false, filterSector := "" }).filters.sector =
          none := by
  refine ⟨?_, by decide, ?_, by decide, by decide⟩
  · intro st
    refine ⟨?_, ?_, ?_, ?_, ?_, ?_, ?_, ?_, ?_, ?_, ?_, ?_, rfl, rfl, ?_⟩
    · by_cases h : st.filterCgof = "" <;> simp [getCurrentParams, h]
    · by_cases h : st.filterSector = "" <;> simp [getCurrentParams, h]
    · by_cases h : st.filterEntryDateStart = "" <;> simp [getCurrentParams, h]
    · by_cases h : st.filterEntryDateEnd = "" <;> simp [getCurrentParams, h]
    · by_cases h : st.filterUrgent <;> simp [getCurrentParams, h]
    · by_cases h : st.filterUrgent <;> simp [getCurrentParams, h]
    · by_cases h : st.filterOverdue <;> simp [getCurrentParams, h]
    · by_cases h : st.filterOverdue <;> simp [getCurrentParams, h]
    · by_cases h : st.filterEmptySector <;> simp [getCurrentParams, h]
    · by_cases h : st.filterEmptySector <;> simp [getCurrentParams, h]
    · by_cases h : st.filterEmptyExitDate <;> simp [getCurrentParams, h]
    · by_cases h : st.filterEmptyExitDate <;> simp [getCurrentParams, h]
    · intro h
      simp [getCurrentParams, h]
  · intro st h
    simp [rangeFrom, getCurrentParams, h]

theorem c6_query_builder_witness :
    (getCurrentParams initialUiState).sortBy = some (SortField.entryDate, SortOrder.desc)
    ∧ rangeFrom (getCurrentParams initialUiState) = 0 :=
  ⟨(c6_query_builder.1 initialUiState).2.2.2.2.2.2.2.2.2.2.2.2.2.2 rfl,
   c6_query_builder.2.2.1 initialUiState rfl⟩

/-! ## Batch-run lemmas for the bulk import -/

theorem runBatches_all_none (ins : List Process → Option String)
    (cs : List (List Process)) (h : ∀ c ∈ cs, ins c = none) :
    runBatches ins cs = { attempted := cs, result := none } := by
  induction cs with
  | nil => rfl
  | cons c cs ih =>
    have hc : ins c = none := h c (List.mem_cons_self _ _)
    have hrest := ih (fun x hx => h x (List.mem_cons_of_mem _ hx))
    simp [runBatches, hc, hrest]

theorem runBatches_first_failure (ins : List Process → Option String)
    (pre : List (List Process)) (c : List Process) (post : List (List Process)) (e : String)
    (hpre : ∀ c' ∈ pre, ins c' = none) (hc : ins c = some e) :
    runBatches ins (pre ++ c :: post) = { attempted := pre ++ [c], result := some e } := by
  induction pre with
  | nil => simp [runBatches, hc]
  | cons c' pre ih =>
    have h1 : ins c' = none := hpre c' (List.mem_cons_self _ _)
    have hrest := ih (fun x hx => hpre x (List.mem_cons_of_mem _ hx))
    simp [runBatches, h1, hrest]

theorem importBatches_length (ps : List Process) :
    (importBatches ps).length = (ps.length + 99) / 100 := by
  simp [importBatches, chunksOf, cleanImport]

/-- C7: For every bulk import of N records with batch size 100,
`importProcesses` slices the normalized records into exactly `ceil(N/100)`
batches and inserts them in order; if all inserts succeed, every batch is
written and no error is reported; if the store fails a batch after the error-free
prefix `pre`, the error is propagated to the caller, exactly the batches of
`pre` remain committed, the failing batch was the last one attempted, and the
batches after it are never attempted. -/
theorem c7_import_batches (ins : List Process → Option String) (ps : List Process) :
    (importBatches ps).length = (ps.length + 99) / 100
    ∧ ((∀ c ∈ importBatches ps, ins c = none) →
        importProcesses ins ps = { attempted := importBatches ps, result := none })
    ∧ (∀ pre c post e, importBatches ps = pre ++ c :: post →
        (∀ c' ∈ pre, ins c' = none) → ins c = some e →
        importProcesses ins ps = { attempted := pre ++ [c], result := some e }) := by
  refine ⟨importBatches_length ps, ?_, ?_⟩
  · intro h
    rw [importProcesses]
    exact runBatches_all_none ins (importBatches ps) h
  · intro pre c post e hdec hpre hc
    rw [importProcesses, hdec]
    exact runBatches_first_failure ins pre c post e hpre hc

theorem c7_import_batches_witness :
    importProcesses (fun _ => some "insert failed") [realRec] =
      { attempted := [[{ realRec with CGOF := "Assessoria" }]],
        result := some "insert failed" } :=
  (c7_import_batches (fun _ => some "insert failed") [realRec]).2.2
    [] [{ realRec with CGOF := "Assessoria" }] [] "insert failed"
    (by decide) (by simp) rfl

/-- C8 counterexample: the spreadsheet serial 45000 denotes 15/03/2023, not
15/03/2024, so a row with header "Data Entrada" and value "15/03/2024" does NOT
parse to the same normalized entry date as a row with header "Entrada" and
serial 45000 (the paths yield `2024-03-15T12:00:00-03:00` and
`2023-03-15T12:00:00-03:00` respectively). -/
theorem c8_counterexample :
    parseExcelDate (fun _ => none)
        (getVal [("Data Entrada", CellVal.str "15/03/2024")] entryHeaderSynonyms) ≠
      parseExcelDate (fun _ => none)
        (getVal [("Entrada", CellVal.num 45000)] entryHeaderSynonyms) := by
  decide

/-- C8 (amended): a row with header "Data Entrada" and value "15/03/2023"
parses to the same normalized entry date as a row with header "Entrada" and
numeric serial 45000 — both to `2023-03-15T12:00:00-03:00` — independently of
the external date parser; header matching is case-insensitive (and trims)
across the accepted synonyms for the entry-date field. -/
theorem c8_import_date_normalization :
    (∀ jsDateMs : String → Option Int,
        parseExcelDate jsDateMs
            (getVal [("Data Entrada", CellVal.str "15/03/2023")] entryHeaderSynonyms) =
          parseExcelDate jsDateMs
            (getVal [("Entrada", CellVal.num 45000)] entryHeaderSynonyms)
        ∧ parseExcelDate jsDateMs
            (getVal [("Entrada", CellVal.num 45000)] entryHeaderSynonyms) =
            some "2023-03-15T12:00:00-03:00")
    ∧ headerKeyMatches "DATA ENTRADA" entryHeaderSynonyms = true
    ∧ headerKeyMatches "data entrada" entryHeaderSynonyms = true
    ∧ headerKeyMatches " Entrada " entryHeaderSynonyms = true
    ∧ headerKeyMatches "ENTRADA" entryHeaderSynonyms = true
    ∧ headerKeyMatches "Saldo" entryHeaderSynonyms = false := by
  refine ⟨?_, by decide, by decide, by decide, by decide, by decide⟩
  intro jsDateMs
  have h1 : getVal [("Data Entrada", CellVal.str "15/03/2023")] entryHeaderSynonyms =
      some (CellVal.str "15/03/2023") := by decide
  have h2 : getVal [("Entrada", CellVal.num 45000)] entryHeaderSynonyms =
      some (CellVal.num 45000) := by decide
  rw [h1, h2]
  have h3 : parseExcelDate jsDateMs (some (CellVal.str "15/03/2023")) =
      parseExcelDateSlash "15/03/2023" := by
    rw [parseExcelDate]
    rw [if_neg (by decide), if_pos (by decide)]
  have h4 : parseExcelDate jsDateMs (some (CellVal.num 45000)) =
      parseExcelDateNum 45000 := by
    rw [parseExcelDate]
    rw [if_neg (by decide)]
  rw [h3, h4]
  exact ⟨by decide, by decide⟩

theorem c8_import_date_normalization_witness :
    parseExcelDate (fun _ => none)
        (getVal [("Data Entrada", CellVal.str "15/03/2023")] entryHeaderSynonyms) =
      parseExcelDate (fun _ => none)
        (getVal [("Entrada", CellVal.num 45000)] entryHeaderSynonyms) :=
  (c8_import_date_normalization.1 (fun _ => none)).1

/-- C9: `DbService.getProcesses` never throws: whenever the underlying store
reports an error, it returns `{ data: [], count: 0 }` (the failure is only
logged to the console, which the model does not observe), making a transport
failure indistinguishable to the caller from a successful empty result set. -/
theorem c9_getProcesses_error_path :
    (∀ (resp : StoreResponse) (e : String), resp.error = some e →
        getProcesses resp = ([], 0))
    ∧ (∀ (resp : StoreResponse) (e : String), resp.error = some e →
        getProcesses resp =
          getProcesses { data := some [], error := none, count := some 0 }) := by
  constructor <;> intro resp e h <;> simp [getProcesses, h]

theorem c9_getProcesses_error_path_witness :
    getProcesses { data := none, error := some "network unreachable", count := none } =
      ([], 0) :=
  c9_getProcesses_error_path.1 _ "network unreachable" rfl

/-- C10: `DbService.deleteUser` always throws when the target user id equals the
performing user's own id; in that case no delete is sent to the store and no
audit-log entry is appended, so a user can never delete their own account
through this operation. -/
theorem c10_deleteUser_self_guard (userId : String) (performedBy : User)
    (storeErr : Option String) (h : userId = performedBy.id) :
    (deleteUser userId performedBy storeErr).err =
        some "Você não pode excluir seu próprio usuário."
    ∧ (deleteUser userId performedBy storeErr).deletes = []
    ∧ (deleteUser userId performedBy storeErr).logs = [] := by
  simp [deleteUser, h]

theorem c10_deleteUser_self_guard_witness :
    (deleteUser "u1" { id := "u1", name := "Administrador" } none).err =
        some "Você não pode excluir seu próprio usuário."
    ∧ (deleteUser "u1" { id := "u1", name := "Administrador" } none).deletes = []
    ∧ (deleteUser "u1" { id := "u1", name := "Administrador" } none).logs = [] :=
  c10_deleteUser_self_guard "u1" { id := "u1", name := "Administrador" } none rfl

end Cgof
